import Mathlib

/-!
Verification development for the `texthooker` scratchpad application
(`src/main.rs`).  The core state of the program is a `BTreeMap<usize, Line>`
ledger of text lines, an id counter, and a pair of undo/redo stacks.  We model
the `BTreeMap` as an association list sorted strictly by key (which is exactly
the observable content of a `BTreeMap`: an ordered sequence of key/value pairs
with unique keys), `Vec`-backed stacks as Lean lists whose head is the stack
top, and Rust `unwrap` calls as `Option`-valued functions where `none` marks
the panic case.  `usize` values are modelled as `Nat`; the only arithmetic on
them in the source is `+= 1` and `-= 1`.
-/

namespace Texthooker

/-- Association-list map sorted strictly by `Nat` key: the model of
`BTreeMap<usize, α>`. -/
abbrev AMap (α : Type) := List (Nat × α)

/-- Model of `BTreeMap::insert`: place the binding at its ordered position,
replacing an existing binding for the same key. -/
def mapInsert {α : Type} (id : Nat) (v : α) : AMap α → AMap α
  | [] => [(id, v)]
  | (k, w) :: rest =>
    if id < k then (id, v) :: (k, w) :: rest
    else if id = k then (id, v) :: rest
    else (k, w) :: mapInsert id v rest

/-- Model of `BTreeMap::remove` (dropping the returned value): delete the
binding for the key, if present. -/
def mapErase {α : Type} (id : Nat) : AMap α → AMap α
  | [] => []
  | (k, w) :: rest => if k = id then rest else (k, w) :: mapErase id rest

/-- Model of `BTreeMap::get` / the lookup half of `get_mut` and `remove`. -/
def mapGet {α : Type} (m : AMap α) (id : Nat) : Option α :=
  match m with
  | [] => none
  | (k, w) :: rest => if id = k then some w else mapGet rest id

/-- Model of `BTreeMap::is_empty`. -/
def mapIsEmpty {α : Type} (m : AMap α) : Bool := m.isEmpty

/-- Keys strictly increasing: the representation invariant of `BTreeMap`
contents. -/
def SortedKeys {α : Type} (m : AMap α) : Prop :=
  List.Pairwise (fun p q => p.1 < q.1) m

/-- All keys of the map are below the bound `c`. -/
def keysLt {α : Type} (m : AMap α) (c : Nat) : Prop := ∀ p ∈ m, p.1 < c

/-- Model of `str::trim`: drop leading and trailing whitespace (the source's
texts are ASCII-whitespace-delimited, so `Char.isWhitespace` is the right
predicate).  Defined on the character list so that it evaluates by kernel
reduction. -/
def trim (s : String) : String :=
  ⟨((s.data.dropWhile Char.isWhitespace).reverse.dropWhile Char.isWhitespace).reverse⟩

/-- Model of `str::is_empty`. -/
def strIsEmpty (s : String) : Bool := s.data.isEmpty

/-- `struct Line { version: Version, text: String }` from the source. -/
structure Line where
  version : Nat
  text : String
deriving DecidableEq, Repr

/-- `Line::new`: a fresh line has version 0. -/
def Line.new (text : String) : Line := ⟨0, text⟩

/-- `enum UndoEntry`, generic in the line payload so that the instrumented
(ghost-counter) semantics can reuse it. -/
inductive UndoEntryG (α : Type) where
  | Add : Nat → α → UndoEntryG α
  | Remove : Nat → UndoEntryG α
  | Edit : Nat → String → UndoEntryG α
  | ReplaceAll : AMap α → UndoEntryG α
deriving DecidableEq

/-- `enum RedoEntry`, generic in the line payload. -/
inductive RedoEntryG (α : Type) where
  | Add : Nat → α → RedoEntryG α
  | Remove : Nat → RedoEntryG α
  | Edit : Nat → String → RedoEntryG α
  | Clear : RedoEntryG α
deriving DecidableEq

/-- `struct UndoStack { undos: Vec<UndoEntry>, redos: Vec<RedoEntry> }`;
the head of each list is the top of the stack. -/
structure UndoStackG (α : Type) where
  undos : List (UndoEntryG α)
  redos : List (RedoEntryG α)
deriving DecidableEq

/-- `UndoStack::push_and_clear_redos`. -/
def UndoStackG.push_and_clear_redos {α : Type} (st : UndoStackG α) (e : UndoEntryG α) :
    UndoStackG α :=
  ⟨e :: st.undos, []⟩

/-- The mutable state owned by the `App` component: the `lines` signal, the
`id_counter` stored value and the undo stack signal. -/
structure StG (α : Type) where
  lines : AMap α
  id_counter : Nat
  stack : UndoStackG α
deriving DecidableEq

abbrev LineMap := AMap Line
abbrev UndoEntry := UndoEntryG Line
abbrev RedoEntry := RedoEntryG Line
abbrev St := StG Line

/-- The `add_entry` closure (scroll handling omitted; it does not touch the
core state): insert `Line::new(text)` at `next_id`, bump the counter, record
`UndoEntry::Remove(next_id)`. -/
def add_entry (text : String) (s : St) : St :=
  { lines := mapInsert s.id_counter (Line.new text) s.lines
    id_counter := s.id_counter + 1
    stack := s.stack.push_and_clear_redos (.Remove s.id_counter) }

/-- The `clear` closure: no-op on an empty ledger, otherwise `mem::take` the
lines and record `UndoEntry::ReplaceAll(taken)`. -/
def clear (s : St) : St :=
  if mapIsEmpty s.lines then s
  else
    { lines := []
      id_counter := s.id_counter
      stack := s.stack.push_and_clear_redos (.ReplaceAll s.lines) }

/-- The `set_text` closure of `LineView` (the spec's `editLine`): trim the new
text, no-op returning `false` when it equals the current text, otherwise swap
the text in, bump the version, record `UndoEntry::Edit(id, old_text)` and
return `true`.  `none` models the `get_mut(&id).unwrap()` panic. -/
def set_text (id : Nat) (new_text : String) (s : St) : Option (St × Bool) :=
  let t := trim new_text
  match mapGet s.lines id with
  | none => none
  | some line =>
    if line.text = t then some (s, false)
    else
      some ({ lines := mapInsert id { version := line.version + 1, text := t } s.lines
              id_counter := s.id_counter
              stack := s.stack.push_and_clear_redos (.Edit id line.text) }, true)

/-- The `remove` closure of `LineView` (the spec's `removeLine`): delete the
line and record `UndoEntry::Add(id, line)`.  `none` models the
`remove(&id).unwrap()` panic. -/
def remove_line (id : Nat) (s : St) : Option St :=
  match mapGet s.lines id with
  | none => none
  | some line =>
    some { lines := mapErase id s.lines
           id_counter := s.id_counter
           stack := s.stack.push_and_clear_redos (.Add id line) }

/-- The per-entry body of the `undo` closure's `match`: apply the inverse
action to the line map and produce the entry pushed onto `redos`. -/
def undoApply (m : LineMap) : UndoEntry → Option (LineMap × RedoEntry)
  | .Add id line => some (mapInsert id line m, .Remove id)
  | .Remove id =>
    match mapGet m id with
    | none => none
    | some line => some (mapErase id m, .Add id line)
  | .Edit id old_text =>
    match mapGet m id with
    | none => none
    | some line =>
      some (mapInsert id { version := line.version - 1, text := old_text } m,
            .Edit id line.text)
  | .ReplaceAll old_lines => some (old_lines, .Clear)

/-- The `undo` closure: pop the top of `undos` (no-op when empty), apply the
inverse action and push the produced entry onto `redos`. -/
def undo (s : St) : Option St :=
  match s.stack.undos with
  | [] => some s
  | e :: rest =>
    match undoApply s.lines e with
    | none => none
    | some (m, r) => some { lines := m, id_counter := s.id_counter, stack := ⟨rest, r :: s.stack.redos⟩ }

/-- The per-entry body of the `redo` closure's `match`. -/
def redoApply (m : LineMap) : RedoEntry → Option (LineMap × UndoEntry)
  | .Add id line => some (mapInsert id line m, .Remove id)
  | .Remove id =>
    match mapGet m id with
    | none => none
    | some line => some (mapErase id m, .Add id line)
  | .Edit id new_text =>
    match mapGet m id with
    | none => none
    | some line =>
      some (mapInsert id { version := line.version + 1, text := new_text } m,
            .Edit id line.text)
  | .Clear => some ([], .ReplaceAll m)

/-- The `redo` closure: pop the top of `redos` (no-op when empty), apply the
forward action and push the produced entry onto `undos`. -/
def redo (s : St) : Option St :=
  match s.stack.redos with
  | [] => some s
  | r :: rest =>
    match redoApply s.lines r with
    | none => none
    | some (m, e) => some { lines := m, id_counter := s.id_counter, stack := ⟨e :: s.stack.undos, rest⟩ }

/-- `normalize_line_map`: re-key the entries to `0, 1, ...` in order and reset
every version to 0 (`(0..).zip(take(lines).into_values().map(|line| Line {
version: 0, ..line })).collect()`). -/
def normalize_line_map (m : LineMap) : LineMap :=
  List.zip (List.range m.length) (m.map fun p => { version := 0, text := p.2.text })

/-- The `normalize_line_endings::normalized` iterator: CRLF and lone CR become
LF. -/
def normalized : List Char → List Char
  | [] => []
  | '\r' :: '\n' :: rest => '\n' :: normalized rest
  | '\r' :: rest => '\n' :: normalized rest
  | c :: rest => c :: normalized rest

/-- The per-node body of the mutation-observer callback, after the node has
been removed from the document: trim the text content, drop it if empty, drop
it if it equals the tracked selection under line-ending normalization,
otherwise `add_entry` it. -/
def capture_node (selected_text text : String) (s : St) : St :=
  let t := trim text
  if strIsEmpty t then s
  else if normalized selected_text.data = normalized t.data then s
  else add_entry t s

/-- The externally triggered ledger mutations (view intents plus capture). -/
inductive Op where
  | add : String → Op
  | edit : Nat → String → Op
  | remove : Nat → Op
  | clearAll : Op
deriving DecidableEq

/-- Run one mutation intent against the state. -/
def applyOp : Op → St → Option St
  | .add t, s => some (add_entry t s)
  | .edit id t, s => (set_text id t s).map Prod.fst
  | .remove id, s => remove_line id s
  | .clearAll, s => some (clear s)

/-- Run a sequence of mutation intents. -/
def applySeq : List Op → St → Option St
  | [], s => some s
  | op :: ops, s =>
    match applyOp op s with
    | none => none
    | some s' => applySeq ops s'

/-- Iterate `undo` `n` times. -/
def undoN : Nat → St → Option St
  | 0, s => some s
  | n + 1, s =>
    match undo s with
    | none => none
    | some s' => undoN n s'

/-- Iterate `redo` `n` times. -/
def redoN : Nat → St → Option St
  | 0, s => some s
  | n + 1, s =>
    match redo s with
    | none => none
    | some s' => redoN n s'

/-- Replay a block of undo entries (top first) against a line map, threading
the redo stack being built; used to reason about iterated `undo`. -/
def undoMany : List UndoEntry → LineMap → List RedoEntry → Option (LineMap × List RedoEntry)
  | [], m, rs => some (m, rs)
  | e :: es, m, rs =>
    match undoApply m e with
    | none => none
    | some (m', r) => undoMany es m' (r :: rs)

/-- Replay a block of redo entries (top first) against a line map, threading
the undo stack being built; used to reason about iterated `redo`. -/
def redoMany : List RedoEntry → LineMap → List UndoEntry → Option (LineMap × List UndoEntry)
  | [], m, us => some (m, us)
  | r :: rs, m, us =>
    match redoApply m r with
    | none => none
    | some (m', e) => redoMany rs m' (e :: us)

/-- Any event the app reacts to: a mutation intent, an undo, or a redo. -/
inductive Step where
  | op : Op → Step
  | undoStep : Step
  | redoStep : Step

/-- Run one event. -/
def applyStep : Step → St → Option St
  | .op o, s => applyOp o s
  | .undoStep, s => undo s
  | .redoStep, s => redo s

/-- The state right after startup: the loaded ledger is normalized, the id
counter is seeded at its length, and the history is empty. -/
def initial_state (m : LineMap) : St :=
  let lines := normalize_line_map m
  ⟨lines, lines.length, ⟨[], []⟩⟩

/-- States reachable by any sequence of events from some startup state. -/
inductive Reachable : St → Prop where
  | start (m : LineMap) : Reachable (initial_state m)
  | step {s s' : St} (st : Step) : Reachable s → applyStep st s = some s' → Reachable s'

/-!
### Instrumented (ghost-counter) semantics

To state that a line's `version` equals the net number of applied edits on
that line since its creation or since normalization, we instrument the
semantics: `GLine` extends `Line` with a ghost field `net : ℤ` that is, by
construction, exactly that net count — it starts at 0 when a line is created
or normalized, goes up by one every time an edit is applied to the line
(committed by `set_text`, or replayed by `redo`), and goes down by one every
time an edit on the line is unapplied (`undo`).  Every instrumented operation
is the corresponding source operation with these ghost updates added and
nothing else changed; projecting the ghost field away recovers the source
semantics exactly (`sim_step` below).
-/

structure GLine where
  version : Nat
  text : String
  net : Int
deriving DecidableEq

abbrev GLineMap := AMap GLine
abbrev GUndoEntry := UndoEntryG GLine
abbrev GRedoEntry := RedoEntryG GLine
abbrev GSt := StG GLine

/-- `Line::new`, instrumented: a fresh line has version 0 and no applied
edits. -/
def GLine.new (text : String) : GLine := ⟨0, text, 0⟩

/-- `add_entry`, instrumented. -/
def g_add_entry (text : String) (s : GSt) : GSt :=
  { lines := mapInsert s.id_counter (GLine.new text) s.lines
    id_counter := s.id_counter + 1
    stack := s.stack.push_and_clear_redos (.Remove s.id_counter) }

/-- `clear`, instrumented. -/
def g_clear (s : GSt) : GSt :=
  if mapIsEmpty s.lines then s
  else
    { lines := []
      id_counter := s.id_counter
      stack := s.stack.push_and_clear_redos (.ReplaceAll s.lines) }

/-- `set_text`, instrumented: a committed edit is one applied edit more. -/
def g_set_text (id : Nat) (new_text : String) (s : GSt) : Option (GSt × Bool) :=
  let t := trim new_text
  match mapGet s.lines id with
  | none => none
  | some line =>
    if line.text = t then some (s, false)
    else
      some ({ lines := mapInsert id { version := line.version + 1, text := t, net := line.net + 1 } s.lines
              id_counter := s.id_counter
              stack := s.stack.push_and_clear_redos (.Edit id line.text) }, true)

/-- `remove_line`, instrumented. -/
def g_remove_line (id : Nat) (s : GSt) : Option GSt :=
  match mapGet s.lines id with
  | none => none
  | some line =>
    some { lines := mapErase id s.lines
           id_counter := s.id_counter
           stack := s.stack.push_and_clear_redos (.Add id line) }

/-- `undoApply`, instrumented: undoing an edit is one applied edit fewer. -/
def g_undoApply (m : GLineMap) : GUndoEntry → Option (GLineMap × GRedoEntry)
  | .Add id line => some (mapInsert id line m, .Remove id)
  | .Remove id =>
    match mapGet m id with
    | none => none
    | some line => some (mapErase id m, .Add id line)
  | .Edit id old_text =>
    match mapGet m id with
    | none => none
    | some line =>
      some (mapInsert id { version := line.version - 1, text := old_text, net := line.net - 1 } m,
            .Edit id line.text)
  | .ReplaceAll old_lines => some (old_lines, .Clear)

/-- `undo`, instrumented. -/
def g_undo (s : GSt) : Option GSt :=
  match s.stack.undos with
  | [] => some s
  | e :: rest =>
    match g_undoApply s.lines e with
    | none => none
    | some (m, r) => some { lines := m, id_counter := s.id_counter, stack := ⟨rest, r :: s.stack.redos⟩ }

/-- `redoApply`, instrumented: replaying an edit is one applied edit more. -/
def g_redoApply (m : GLineMap) : GRedoEntry → Option (GLineMap × GUndoEntry)
  | .Add id line => some (mapInsert id line m, .Remove id)
  | .Remove id =>
    match mapGet m id with
    | none => none
    | some line => some (mapErase id m, .Add id line)
  | .Edit id new_text =>
    match mapGet m id with
    | none => none
    | some line =>
      some (mapInsert id { version := line.version + 1, text := new_text, net := line.net + 1 } m,
            .Edit id line.text)
  | .Clear => some ([], .ReplaceAll m)

/-- `redo`, instrumented. -/
def g_redo (s : GSt) : Option GSt :=
  match s.stack.redos with
  | [] => some s
  | r :: rest =>
    match g_redoApply s.lines r with
    | none => none
    | some (m, e) => some { lines := m, id_counter := s.id_counter, stack := ⟨e :: s.stack.undos, rest⟩ }

/-- `normalize_line_map`, instrumented: normalization resets versions and the
applied-edit counts. -/
def g_normalize_line_map (m : GLineMap) : GLineMap :=
  List.zip (List.range m.length) (m.map fun p => { version := 0, text := p.2.text, net := 0 })

/-- Run one mutation intent, instrumented. -/
def g_applyOp : Op → GSt → Option GSt
  | .add t, s => some (g_add_entry t s)
  | .edit id t, s => (g_set_text id t s).map Prod.fst
  | .remove id, s => g_remove_line id s
  | .clearAll, s => some (g_clear s)

/-- Run one event, instrumented. -/
def g_applyStep : Step → GSt → Option GSt
  | .op o, s => g_applyOp o s
  | .undoStep, s => g_undo s
  | .redoStep, s => g_redo s

/-- The startup state, instrumented. -/
def g_initial_state (m : GLineMap) : GSt :=
  let lines := g_normalize_line_map m
  ⟨lines, lines.length, ⟨[], []⟩⟩

/-- Reachability for the instrumented semantics. -/
inductive GReachable : GSt → Prop where
  | start (m : GLineMap) : GReachable (g_initial_state m)
  | step {s s' : GSt} (st : Step) : GReachable s → g_applyStep st s = some s' → GReachable s'

/-- Forget the ghost counter. -/
def projLine (l : GLine) : Line := ⟨l.version, l.text⟩

def projMap (m : GLineMap) : LineMap := m.map fun p => (p.1, projLine p.2)

def projUndoEntry : GUndoEntry → UndoEntry
  | .Add id l => .Add id (projLine l)
  | .Remove id => .Remove id
  | .Edit id t => .Edit id t
  | .ReplaceAll old => .ReplaceAll (projMap old)

def projRedoEntry : GRedoEntry → RedoEntry
  | .Add id l => .Add id (projLine l)
  | .Remove id => .Remove id
  | .Edit id t => .Edit id t
  | .Clear => .Clear

def projSt (s : GSt) : St :=
  ⟨projMap s.lines, s.id_counter,
    ⟨s.stack.undos.map projUndoEntry, s.stack.redos.map projRedoEntry⟩⟩

/-- Equip a plain line with a ghost counter (used to lift start states). -/
def liftLine (l : Line) : GLine := ⟨l.version, l.text, 0⟩

def liftMap (m : LineMap) : GLineMap := m.map fun p => (p.1, liftLine p.2)

/-- A line's version agrees with its net applied-edit count. -/
def lineOK (l : GLine) : Prop := (l.version : Int) = l.net

def mapOK (m : GLineMap) : Prop := ∀ p ∈ m, lineOK p.2

/-- Well-formedness of an undo entry relative to the id counter: mentioned
ids are below the counter, stored lines and snapshots are consistent. -/
def entryOKU (c : Nat) : GUndoEntry → Prop
  | .Add id l => id < c ∧ lineOK l
  | .Remove id => id < c
  | .Edit id _ => id < c
  | .ReplaceAll old => SortedKeys old ∧ keysLt old c ∧ mapOK old

def entryOKR (c : Nat) : GRedoEntry → Prop
  | .Add id l => id < c ∧ lineOK l
  | .Remove id => id < c
  | .Edit id _ => id < c
  | .Clear => True

/-- The undo stack replays successfully against the current line map: each
entry in turn finds the id it needs, an `Edit` finds a line with a positive
version, and a `ReplaceAll` is only ever popped on an empty ledger. -/
def UndosOK : GLineMap → List GUndoEntry → Prop
  | _, [] => True
  | m, .Add id l :: es => mapGet m id = none ∧ UndosOK (mapInsert id l m) es
  | m, .Remove id :: es => ∃ l, mapGet m id = some l ∧ UndosOK (mapErase id m) es
  | m, .Edit id old :: es =>
    ∃ l, mapGet m id = some l ∧ 1 ≤ l.version ∧
      UndosOK (mapInsert id ⟨l.version - 1, old, l.net - 1⟩ m) es
  | m, .ReplaceAll old :: es => m = [] ∧ UndosOK old es

/-- The redo stack replays successfully against the current line map. -/
def RedosOK : GLineMap → List GRedoEntry → Prop
  | _, [] => True
  | m, .Add id l :: rs => mapGet m id = none ∧ RedosOK (mapInsert id l m) rs
  | m, .Remove id :: rs => ∃ l, mapGet m id = some l ∧ RedosOK (mapErase id m) rs
  | m, .Edit id nt :: rs =>
    ∃ l, mapGet m id = some l ∧ RedosOK (mapInsert id ⟨l.version + 1, nt, l.net + 1⟩ m) rs
  | _, .Clear :: rs => RedosOK [] rs

/-- The inductive invariant of reachable instrumented states. -/
structure GInv (s : GSt) : Prop where
  sorted : SortedKeys s.lines
  keys_lt : keysLt s.lines s.id_counter
  lines_ok : mapOK s.lines
  undos_entries : ∀ e ∈ s.stack.undos, entryOKU s.id_counter e
  redos_entries : ∀ r ∈ s.stack.redos, entryOKR s.id_counter r
  undos_ok : UndosOK s.lines s.stack.undos
  redos_ok : RedosOK s.lines s.stack.redos

/-- Concrete states used by the witness theorems. -/
def c10St : St := ⟨[], 0, ⟨[], [.Clear]⟩⟩

def c2St : St := ⟨[], 0, ⟨[], [.Clear]⟩⟩

def c3St : St := ⟨[(0, ⟨0, "a"⟩)], 1, ⟨[], []⟩⟩

def c4St : St := ⟨[(0, ⟨0, "a"⟩)], 1, ⟨[], []⟩⟩

def c5St : St := ⟨[], 0, ⟨[], []⟩⟩

def c6St : St := ⟨[(0, ⟨1, "x"⟩)], 1, ⟨[.Edit 0 "a"], []⟩⟩

/-! ### Lemmas about the sorted association-list model of `BTreeMap` -/

variable {α : Type}

theorem mem_mapInsert {id : Nat} {v : α} {m : AMap α} {x : Nat × α}
    (h : x ∈ mapInsert id v m) : x = (id, v) ∨ x ∈ m := by
  induction m with
  | nil => simpa [mapInsert] using h
  | cons p rest ih =>
    obtain ⟨k, w⟩ := p
    simp only [mapInsert] at h
    split at h
    · simpa using h
    · split at h
      · simp only [List.mem_cons] at h
        rcases h with h | h
        · exact Or.inl h
        · exact Or.inr (List.mem_cons_of_mem _ h)
      · simp only [List.mem_cons] at h
        rcases h with h | h
        · exact Or.inr (by simp [h])
        · rcases ih h with h' | h'
          · exact Or.inl h'
          · exact Or.inr (List.mem_cons_of_mem _ h')

theorem mem_mapErase {id : Nat} {m : AMap α} {x : Nat × α}
    (h : x ∈ mapErase id m) : x ∈ m := by
  induction m with
  | nil => simp [mapErase] at h
  | cons p rest ih =>
    obtain ⟨k, w⟩ := p
    simp only [mapErase] at h
    split at h
    · exact List.mem_cons_of_mem _ h
    · simp only [List.mem_cons] at h ⊢
      rcases h with h | h
      · exact Or.inl h
      · exact Or.inr (ih h)

theorem mapGet_mem {m : AMap α} {id : Nat} {v : α} (h : mapGet m id = some v) :
    (id, v) ∈ m := by
  induction m with
  | nil => simp [mapGet] at h
  | cons p rest ih =>
    obtain ⟨k, w⟩ := p
    simp only [mapGet] at h
    split at h
    · rename_i heq
      simp only [Option.some_inj] at h
      simp [heq, h]
    · exact List.mem_cons_of_mem _ (ih h)

theorem mapGet_insert_self {id : Nat} {v : α} (m : AMap α) :
    mapGet (mapInsert id v m) id = some v := by
  induction m with
  | nil => simp [mapInsert, mapGet]
  | cons p rest ih =>
    obtain ⟨k, w⟩ := p
    simp only [mapInsert]
    split
    · simp [mapGet]
    · split
      · simp [mapGet]
      · rename_i h1 h2
        simp [mapGet, h2, ih]

theorem mapGet_insert_ne {id k : Nat} {v : α} (m : AMap α) (h : k ≠ id) :
    mapGet (mapInsert id v m) k = mapGet m k := by
  induction m with
  | nil => simp [mapInsert, mapGet, h]
  | cons p rest ih =>
    obtain ⟨j, w⟩ := p
    simp only [mapInsert]
    split
    · simp [mapGet, h]
    · split
      · rename_i h1 h2
        subst h2
        simp [mapGet, h]
      · by_cases hk : k = j
        · simp [mapGet, hk]
        · simp [mapGet, hk, ih]

theorem mapGet_erase_ne {id k : Nat} (m : AMap α) (h : k ≠ id) :
    mapGet (mapErase id m) k = mapGet m k := by
  induction m with
  | nil => simp [mapErase]
  | cons p rest ih =>
    obtain ⟨j, w⟩ := p
    simp only [mapErase]
    split
    · rename_i hj
      subst hj
      simp [mapGet, h]
    · by_cases hk : k = j
      · simp [mapGet, hk]
      · simp [mapGet, hk, ih]

theorem keysLt_of_sorted_head {k : Nat} {w : α} {rest : AMap α}
    (hs : SortedKeys ((k, w) :: rest)) : ∀ p ∈ rest, k < p.1 := by
  intro p hp
  exact (List.pairwise_cons.mp hs).1 p hp

theorem sorted_tail {p : Nat × α} {rest : AMap α} (hs : SortedKeys (p :: rest)) :
    SortedKeys rest :=
  (List.pairwise_cons.mp hs).2

theorem mapGet_erase_self {id : Nat} {m : AMap α} (hs : SortedKeys m) :
    mapGet (mapErase id m) id = none := by
  induction m with
  | nil => simp [mapErase, mapGet]
  | cons p rest ih =>
    obtain ⟨k, w⟩ := p
    simp only [mapErase]
    split
    · rename_i hk
      subst hk
      cases hg : mapGet rest k with
      | none => rfl
      | some v =>
        have := keysLt_of_sorted_head hs _ (mapGet_mem hg)
        omega
    · rename_i hk
      have : ¬ id = k := fun h => hk h.symm
      simp [mapGet, this, ih (sorted_tail hs)]

theorem mapErase_insert {id : Nat} {v : α} {m : AMap α} (h : mapGet m id = none) :
    mapErase id (mapInsert id v m) = m := by
  induction m with
  | nil => simp [mapInsert, mapErase]
  | cons p rest ih =>
    obtain ⟨k, w⟩ := p
    by_cases hik : id = k
    · subst hik
      simp [mapGet] at h
    · have h' : mapGet rest id = none := by simpa [mapGet, hik] using h
      have hki : ¬ k = id := fun hh => hik hh.symm
      by_cases hlt : id < k
      · simp [mapInsert, hlt, mapErase]
      · simp [mapInsert, hlt, hik, mapErase, hki, ih h']

theorem mapInsert_get_self {id : Nat} {v : α} {m : AMap α} (hs : SortedKeys m)
    (h : mapGet m id = some v) : mapInsert id v m = m := by
  induction m with
  | nil => simp [mapGet] at h
  | cons p rest ih =>
    obtain ⟨k, w⟩ := p
    by_cases hik : id = k
    · subst hik
      simp [mapGet] at h
      simp [mapInsert, h]
    · have h' : mapGet rest id = some v := by simpa [mapGet, hik] using h
      have hik2 : ¬ id < k := by
        have := keysLt_of_sorted_head hs _ (mapGet_mem h')
        omega
      simp [mapInsert, hik2, hik, ih (sorted_tail hs) h']

theorem mapInsert_erase {id : Nat} {v : α} {m : AMap α} (hs : SortedKeys m)
    (h : mapGet m id = some v) : mapInsert id v (mapErase id m) = m := by
  induction m with
  | nil => simp [mapGet] at h
  | cons p rest ih =>
    obtain ⟨k, w⟩ := p
    by_cases hik : id = k
    · subst hik
      simp [mapGet] at h
      subst h
      have herase : mapErase id ((id, w) :: rest) = rest := by simp [mapErase]
      rw [herase]
      cases rest with
      | nil => simp [mapInsert]
      | cons q rest' =>
        have hq : id < q.1 := keysLt_of_sorted_head hs q (List.mem_cons_self _ _)
        obtain ⟨qk, qw⟩ := q
        simp only at hq
        simp [mapInsert, hq]
    · have h' : mapGet rest id = some v := by simpa [mapGet, hik] using h
      have hki : ¬ k = id := fun hh => hik hh.symm
      have hik2 : ¬ id < k := by
        have := keysLt_of_sorted_head hs _ (mapGet_mem h')
        omega
      simp [mapErase, hki, mapInsert, hik2, hik, ih (sorted_tail hs) h']

theorem mapInsert_insert {id : Nat} {v v' : α} (m : AMap α) :
    mapInsert id v' (mapInsert id v m) = mapInsert id v' m := by
  induction m with
  | nil => simp [mapInsert]
  | cons p rest ih =>
    obtain ⟨k, w⟩ := p
    simp only [mapInsert]
    split
    · rename_i hlt
      simp [mapInsert, hlt]
    · split
      · rename_i h1 h2
        simp [mapInsert, h1, h2]
      · rename_i h1 h2
        simp [mapInsert, h1, h2, ih]

theorem sortedKeys_insert {id : Nat} {v : α} {m : AMap α} (hs : SortedKeys m) :
    SortedKeys (mapInsert id v m) := by
  induction m with
  | nil => simp [mapInsert, SortedKeys]
  | cons p rest ih =>
    obtain ⟨k, w⟩ := p
    simp only [mapInsert]
    split
    · rename_i hlt
      refine List.pairwise_cons.mpr ⟨?_, hs⟩
      intro q hq
      simp only [List.mem_cons] at hq
      rcases hq with hq | hq
      · simp [hq]; omega
      · have := keysLt_of_sorted_head hs _ hq
        omega
    · split
      · rename_i h1 h2
        subst h2
        refine List.pairwise_cons.mpr ⟨?_, sorted_tail hs⟩
        intro q hq
        exact keysLt_of_sorted_head hs _ hq
      · rename_i h1 h2
        refine List.pairwise_cons.mpr ⟨?_, ih (sorted_tail hs)⟩
        intro q hq
        rcases mem_mapInsert hq with hq' | hq'
        · simp [hq']; omega
        · exact keysLt_of_sorted_head hs _ hq'

theorem sortedKeys_erase {id : Nat} {m : AMap α} (hs : SortedKeys m) :
    SortedKeys (mapErase id m) := by
  induction m with
  | nil => simpa [mapErase] using hs
  | cons p rest ih =>
    obtain ⟨k, w⟩ := p
    simp only [mapErase]
    split
    · exact sorted_tail hs
    · refine List.pairwise_cons.mpr ⟨?_, ih (sorted_tail hs)⟩
      intro q hq
      exact keysLt_of_sorted_head hs _ (mem_mapErase hq)

theorem keysLt_get_none {m : AMap α} {c id : Nat} (h : keysLt m c) (hc : c ≤ id) :
    mapGet m id = none := by
  cases hg : mapGet m id with
  | none => rfl
  | some v =>
    have := h _ (mapGet_mem hg)
    omega

theorem keysLt_insert {m : AMap α} {c id : Nat} {v : α} (h : keysLt m c) (hid : id < c) :
    keysLt (mapInsert id v m) c := by
  intro p hp
  rcases mem_mapInsert hp with hp' | hp'
  · simp [hp']; omega
  · exact h _ hp'

theorem keysLt_erase {m : AMap α} {c id : Nat} (h : keysLt m c) :
    keysLt (mapErase id m) c := fun _ hp => h _ (mem_mapErase hp)

theorem keysLt_mono {m : AMap α} {c c' : Nat} (h : keysLt m c) (hcc : c ≤ c') :
    keysLt m c' := fun p hp => lt_of_lt_of_le (h p hp) hcc

/-! ### Helper lemmas about the operations -/

/-- Closed form of `set_text` once the lookup has succeeded. -/
theorem set_text_eq {s : St} {id : Nat} {l : Line} (new_text : String)
    (h : mapGet s.lines id = some l) :
    set_text id new_text s =
      if l.text = trim new_text then some (s, false)
      else
        some ({ lines := mapInsert id ⟨l.version + 1, trim new_text⟩ s.lines
                id_counter := s.id_counter
                stack := ⟨.Edit id l.text :: s.stack.undos, []⟩ }, true) := by
  simp [set_text, h, UndoStackG.push_and_clear_redos]

/-- `redo` is a no-op on an empty redo stack. -/
theorem redo_nil {s : St} (h : s.stack.redos = []) : redo s = some s := by
  obtain ⟨lines, idc, undos, redos⟩ := s
  simp only at h
  subst h
  rfl

/-- `undo` is a no-op on an empty undo stack. -/
theorem undo_nil {s : St} (h : s.stack.undos = []) : undo s = some s := by
  obtain ⟨lines, idc, undos, redos⟩ := s
  simp only at h
  subst h
  rfl

theorem normalize_length (m : LineMap) : (normalize_line_map m).length = m.length := by
  simp [normalize_line_map]

theorem normalize_map_snd_zero (m : LineMap) :
    (normalize_line_map m).map (fun p => ({ version := 0, text := p.2.text } : Line)) =
      m.map (fun p => ({ version := 0, text := p.2.text } : Line)) := by
  have h1 : List.map Prod.snd (normalize_line_map m) =
      m.map (fun p => ({ version := 0, text := p.2.text } : Line)) := by
    apply List.map_snd_zip
    simp
  have h2 : (fun p : Nat × Line => ({ version := 0, text := p.2.text } : Line)) =
      (fun l : Line => ({ version := 0, text := l.text } : Line)) ∘ Prod.snd := rfl
  rw [h2, ← List.map_map, h1, List.map_map]
  congr 1

/-! ### Claim theorems -/

/-- C7: `normalize_line_map` re-keys the entries to the contiguous ascending id
sequence `0, 1, ..., n-1`, preserves the entries' relative order (the value
sequence keeps its order, texts unchanged), and resets every version to 0. -/
theorem c7_normalize_rekeys (m : LineMap) :
    (normalize_line_map m).length = m.length ∧
    (normalize_line_map m).map Prod.fst = List.range m.length ∧
    (normalize_line_map m).map (fun p => p.2.text) = m.map (fun p => p.2.text) ∧
    ∀ p ∈ normalize_line_map m, p.2.version = 0 := by
  refine ⟨normalize_length m, ?_, ?_, ?_⟩
  · apply List.map_fst_zip
    simp
  · have h1 : List.map Prod.snd (normalize_line_map m) =
        m.map (fun p => ({ version := 0, text := p.2.text } : Line)) := by
      apply List.map_snd_zip
      simp
    have h2 : (fun p : Nat × Line => p.2.text) =
        (fun l : Line => l.text) ∘ Prod.snd := rfl
    rw [h2, ← List.map_map, h1, List.map_map]
    congr 1
  · intro p hp
    have h1 : p.2 ∈ m.map (fun p => ({ version := 0, text := p.2.text } : Line)) :=
      (List.of_mem_zip hp).2
    simp only [List.mem_map] at h1
    obtain ⟨q, _, hq⟩ := h1
    simp [← hq]

/-- C8: normalization is idempotent. -/
theorem c8_normalize_idempotent (m : LineMap) :
    normalize_line_map (normalize_line_map m) = normalize_line_map m := by
  have h : normalize_line_map (normalize_line_map m) =
      List.zip (List.range (normalize_line_map m).length)
        ((normalize_line_map m).map fun p => { version := 0, text := p.2.text }) := rfl
  rw [h, normalize_length, normalize_map_snd_zero]
  rfl

/-- C10: `clear` on an empty ledger is a complete no-op: the state (and in
particular the redo stack) is untouched, so a pending redo sequence
survives. -/
theorem c10_clear_empty_noop (s : St) (h : s.lines = []) :
    clear s = s ∧ (clear s).stack.redos = s.stack.redos := by
  have he : mapIsEmpty s.lines = true := by simp [h, mapIsEmpty]
  refine ⟨?_, ?_⟩ <;> simp [clear, he]

/-- Witness for C10 at a concrete state with a pending redo. -/
theorem c10_clear_empty_noop_witness :
    clear c10St = c10St ∧ (clear c10St).stack.redos = c10St.stack.redos :=
  c10_clear_empty_noop c10St rfl

/-- C2: every mutation that records a history entry pushes exactly one entry
onto `undos` and clears `redos`, after which `redo` is a no-op. -/
theorem c2_record_clears_redos (op : Op) (s s' : St)
    (h : applyOp op s = some s') (hne : s'.stack.undos ≠ s.stack.undos) :
    (∃ e, s'.stack.undos = e :: s.stack.undos) ∧ s'.stack.redos = [] ∧ redo s' = some s' := by
  cases op with
  | add t =>
    simp only [applyOp, Option.some_inj] at h
    subst h
    exact ⟨⟨_, rfl⟩, rfl, redo_nil rfl⟩
  | edit id t =>
    simp only [applyOp] at h
    cases hg : mapGet s.lines id with
    | none => simp [set_text, hg] at h
    | some line =>
      rw [set_text_eq t hg] at h
      by_cases hc : line.text = trim t
      · simp [hc] at h
        subst h
        exact absurd rfl hne
      · simp [hc] at h
        subst h
        exact ⟨⟨_, rfl⟩, rfl, redo_nil rfl⟩
  | remove id =>
    simp only [applyOp, remove_line] at h
    cases hg : mapGet s.lines id with
    | none => simp [hg] at h
    | some line =>
      simp only [hg, Option.some_inj] at h
      subst h
      exact ⟨⟨_, rfl⟩, rfl, redo_nil rfl⟩
  | clearAll =>
    simp only [applyOp, Option.some_inj] at h
    subst h
    by_cases he : mapIsEmpty s.lines
    · simp [clear, he] at hne
    · have hc : clear s =
          { lines := [], id_counter := s.id_counter,
            stack := ⟨.ReplaceAll s.lines :: s.stack.undos, []⟩ } := by
        simp [clear, he, UndoStackG.push_and_clear_redos]
      rw [hc]
      exact ⟨⟨_, rfl⟩, rfl, redo_nil rfl⟩

/-- Witness for C2: an `add` on a state with a pending redo. -/
theorem c2_record_clears_redos_witness :
    (∃ e, (add_entry "x" c2St).stack.undos = e :: c2St.stack.undos) ∧
    (add_entry "x" c2St).stack.redos = [] ∧
    redo (add_entry "x" c2St) = some (add_entry "x" c2St) :=
  c2_record_clears_redos (.add "x") c2St (add_entry "x" c2St) rfl (by decide)

/-- C3: `set_text` (the spec's `editLine`) is a no-op returning `false`
exactly when the trimmed new text equals the line's current text; otherwise it
stores the trimmed text, bumps the version by one, pushes
`Edit(id, priorText)` and returns `true`. -/
theorem c3_editLine_noop_iff_trim_eq (s : St) (id : Nat) (new_text : String) (l : Line)
    (h : mapGet s.lines id = some l) :
    (l.text = trim new_text → set_text id new_text s = some (s, false)) ∧
    (l.text ≠ trim new_text →
      set_text id new_text s =
        some ({ lines := mapInsert id ⟨l.version + 1, trim new_text⟩ s.lines
                id_counter := s.id_counter
                stack := ⟨.Edit id l.text :: s.stack.undos, []⟩ }, true)) := by
  constructor <;> intro hc <;> simp [set_text_eq new_text h, hc]

/-- Witness for C3: a no-op edit (text unchanged after trimming) and a
committed edit on a concrete state. -/
theorem c3_editLine_noop_iff_trim_eq_witness :
    set_text 0 " a " c3St = some (c3St, false) ∧
    set_text 0 "b" c3St =
      some (({ lines := mapInsert 0 ⟨1, trim "b"⟩ c3St.lines
               id_counter := c3St.id_counter
               stack := ⟨[.Edit 0 "a"], []⟩ } : St), true) :=
  ⟨(c3_editLine_noop_iff_trim_eq c3St 0 " a " ⟨0, "a"⟩ rfl).1 (by decide),
   (c3_editLine_noop_iff_trim_eq c3St 0 "b" ⟨0, "a"⟩ rfl).2 (by decide)⟩

/-- C4 counterexample: the code has no empty-text rejection.  Editing the line
`"a"` to `" "` (which trims to the empty string) is committed: the text
becomes empty, the version is bumped, and an `Edit` entry is pushed —
contradicting the claim that such an edit leaves text and version unchanged
and pushes no history entry. -/
theorem c4_empty_edit_counterexample :
    set_text 0 " " c4St = some ((⟨[(0, ⟨1, ""⟩)], 1, ⟨[.Edit 0 "a"], []⟩⟩ : St), true) ∧
    ((⟨[(0, ⟨1, ""⟩)], 1, ⟨[.Edit 0 "a"], []⟩⟩ : St).lines ≠ c4St.lines ∧
      (⟨[(0, ⟨1, ""⟩)], 1, ⟨[.Edit 0 "a"], []⟩⟩ : St).stack.undos ≠ c4St.stack.undos) :=
  ⟨rfl, by decide⟩

/-- C4 amended: an edit whose trimmed text is empty receives no special
treatment.  It is a no-op (returning `false`, with the view reverting the
displayed text) only when the line's current text is itself empty; when the
current text is non-empty the edit is committed: the stored text becomes
empty, the version is bumped by one and `Edit(id, priorText)` is pushed. -/
theorem c4_empty_edit_behavior (s : St) (id : Nat) (new_text : String) (l : Line)
    (h : mapGet s.lines id = some l) (he : trim new_text = "") :
    (l.text = "" → set_text id new_text s = some (s, false)) ∧
    (l.text ≠ "" →
      set_text id new_text s =
        some ({ lines := mapInsert id ⟨l.version + 1, ""⟩ s.lines
                id_counter := s.id_counter
                stack := ⟨.Edit id l.text :: s.stack.undos, []⟩ }, true)) := by
  constructor <;> intro hc <;> simp [set_text_eq new_text h, he, hc]

/-- Witness for the amended C4 at a concrete state. -/
theorem c4_empty_edit_behavior_witness :
    set_text 0 " " c4St =
      some (({ lines := mapInsert 0 ⟨1, ""⟩ c4St.lines
               id_counter := c4St.id_counter
               stack := ⟨[.Edit 0 "a"], []⟩ } : St), true) :=
  (c4_empty_edit_behavior c4St 0 " " ⟨0, "a"⟩ rfl rfl).2 (by decide)

/-- C5: a captured block whose trimmed text is empty, or equal to the tracked
selection under line-ending normalization, adds no line and pushes no history
entry; otherwise a fresh `Line` with version 0 and the trimmed text is
inserted at the next id and `Remove(id)` is recorded. -/
theorem c5_capture_filter (selected_text text : String) (s : St) :
    (strIsEmpty (trim text) = true → capture_node selected_text text s = s) ∧
    (normalized selected_text.data = normalized (trim text).data →
      capture_node selected_text text s = s) ∧
    (strIsEmpty (trim text) = false →
      normalized selected_text.data ≠ normalized (trim text).data →
      capture_node selected_text text s =
        { lines := mapInsert s.id_counter (Line.new (trim text)) s.lines
          id_counter := s.id_counter + 1
          stack := ⟨.Remove s.id_counter :: s.stack.undos, []⟩ }) := by
  refine ⟨fun h => by simp [capture_node, h], fun h => ?_, fun h1 h2 => ?_⟩
  · by_cases he : strIsEmpty (trim text)
    · simp [capture_node, he]
    · simp [capture_node, he, h]
  · simp [capture_node, h1, h2, add_entry, UndoStackG.push_and_clear_redos]

/-- Witness for C5: a suppressed whitespace-only capture, a suppressed
selection echo, and a committed capture. -/
theorem c5_capture_filter_witness :
    capture_node "sel" " \n " c5St = c5St ∧
    capture_node "a\r\nb" " a\nb " c5St = c5St ∧
    capture_node "sel" " hi " c5St =
      ({ lines := [(0, ⟨0, "hi"⟩)], id_counter := 1,
         stack := ⟨[.Remove 0], []⟩ } : St) :=
  ⟨(c5_capture_filter "sel" " \n " c5St).1 (by decide),
   (c5_capture_filter "a\r\nb" " a\nb " c5St).2.1 (by decide),
   (c5_capture_filter "sel" " hi " c5St).2.2 (by decide) (by decide)⟩

/-- C6: undoing an `Edit(id, oldText)` entry swaps in `oldText`, decrements
the version by exactly one, and pushes `Edit(id, displacedText)` onto
`redos`; redoing that pushed entry restores the original state exactly
(texts swapped back, version incremented by one, original entry re-pushed). -/
theorem c6_undo_redo_edit (s : St) (id : Nat) (old_text : String)
    (rest : List UndoEntry) (l : Line)
    (hs : SortedKeys s.lines)
    (hu : s.stack.undos = .Edit id old_text :: rest)
    (hl : mapGet s.lines id = some l) (hv : 1 ≤ l.version) :
    undo s = some { lines := mapInsert id ⟨l.version - 1, old_text⟩ s.lines
                    id_counter := s.id_counter
                    stack := ⟨rest, .Edit id l.text :: s.stack.redos⟩ } ∧
    l.version = (l.version - 1) + 1 ∧
    redo { lines := mapInsert id ⟨l.version - 1, old_text⟩ s.lines
           id_counter := s.id_counter
           stack := ⟨rest, .Edit id l.text :: s.stack.redos⟩ } = some s := by
  obtain ⟨lines, idc, undos, redos⟩ := s
  simp only at hu hl hs ⊢
  subst hu
  refine ⟨by simp [undo, undoApply, hl], by omega, ?_⟩
  have h1 : mapGet (mapInsert id (⟨l.version - 1, old_text⟩ : Line) lines) id =
      some ⟨l.version - 1, old_text⟩ := mapGet_insert_self _
  simp only [redo, redoApply, h1]
  rw [mapInsert_insert]
  have h2 : l.version - 1 + 1 = l.version := by omega
  rw [h2]
  have h3 : (⟨l.version, l.text⟩ : Line) = l := rfl
  rw [h3, mapInsert_get_self hs hl]

/-- Witness for C6 at a concrete state. -/
theorem c6_undo_redo_edit_witness :
    undo c6St = some { lines := mapInsert 0 ⟨0, "a"⟩ c6St.lines
                       id_counter := c6St.id_counter
                       stack := ⟨[], [.Edit 0 "x"]⟩ } ∧
    (1 : Nat) = (1 - 1) + 1 ∧
    redo { lines := mapInsert 0 ⟨0, "a"⟩ c6St.lines
           id_counter := c6St.id_counter
           stack := ⟨[], [.Edit 0 "x"]⟩ } = some c6St :=
  c6_undo_redo_edit c6St 0 "a" [] ⟨1, "x"⟩ (by simp [SortedKeys, c6St]) rfl rfl (by decide)

/-! ### Iterated undo/redo machinery for C1 -/

theorem undoN_nil {s : St} (h : s.stack.undos = []) (n : Nat) : undoN n s = some s := by
  induction n with
  | zero => rfl
  | succ n ih =>
    simp only [undoN, undo_nil h]
    exact ih

theorem redoN_nil {s : St} (h : s.stack.redos = []) (n : Nat) : redoN n s = some s := by
  induction n with
  | zero => rfl
  | succ n ih =>
    simp only [redoN, redo_nil h]
    exact ih

theorem undoMany_append (xs ys : List UndoEntry) (m : LineMap) (rs : List RedoEntry) :
    undoMany (xs ++ ys) m rs =
      match undoMany xs m rs with
      | none => none
      | some (m', rs') => undoMany ys m' rs' := by
  induction xs generalizing m rs with
  | nil => simp [undoMany]
  | cons e es ih =>
    simp only [List.cons_append, undoMany]
    cases h : undoApply m e with
    | none => rfl
    | some p =>
      obtain ⟨m1, r⟩ := p
      exact ih m1 (r :: rs)

/-- Every single successful mutation either leaves the state untouched or
pushes exactly one undo entry that inverts it, such that undoing yields the
prior line map and a redo entry that replays it. -/
theorem op_inverts (op : Op) (s s' : St) (hs : SortedKeys s.lines)
    (hk : keysLt s.lines s.id_counter) (h : applyOp op s = some s') :
    s' = s ∨
      ∃ e r, s'.stack.undos = e :: s.stack.undos ∧ s'.stack.redos = [] ∧
        undoApply s'.lines e = some (s.lines, r) ∧
        redoApply s.lines r = some (s'.lines, e) := by
  cases op with
  | add t =>
    simp only [applyOp, Option.some_inj] at h
    subst h
    right
    refine ⟨.Remove s.id_counter, .Add s.id_counter (Line.new t), rfl, rfl, ?_, ?_⟩
    · have hn : mapGet s.lines s.id_counter = none := keysLt_get_none hk le_rfl
      simp [undoApply, add_entry, mapGet_insert_self, mapErase_insert hn]
    · simp [redoApply, add_entry]
  | edit id t =>
    simp only [applyOp] at h
    cases hg : mapGet s.lines id with
    | none => simp [set_text, hg] at h
    | some line =>
      rw [set_text_eq t hg] at h
      by_cases hc : line.text = trim t
      · simp [hc] at h
        subst h
        exact Or.inl rfl
      · simp [hc] at h
        subst h
        right
        refine ⟨.Edit id line.text, .Edit id (trim t), rfl, rfl, ?_, ?_⟩
        · have h1 : mapGet (mapInsert id (⟨line.version + 1, trim t⟩ : Line) s.lines) id =
              some ⟨line.version + 1, trim t⟩ := mapGet_insert_self _
          simp only [undoApply, h1, mapInsert_insert, Nat.add_sub_cancel]
          have h3 : (⟨line.version, line.text⟩ : Line) = line := rfl
          rw [h3, mapInsert_get_self hs hg]
        · simp [redoApply, hg]
  | remove id =>
    simp only [applyOp, remove_line] at h
    cases hg : mapGet s.lines id with
    | none => simp [hg] at h
    | some line =>
      simp only [hg, Option.some_inj] at h
      subst h
      right
      refine ⟨.Add id line, .Remove id, rfl, rfl, ?_, ?_⟩
      · simp [undoApply, mapInsert_erase hs hg]
      · simp [redoApply, hg]
  | clearAll =>
    simp only [applyOp, Option.some_inj] at h
    subst h
    by_cases he : mapIsEmpty s.lines
    · left
      simp [clear, he]
    · right
      have hc : clear s =
          { lines := [], id_counter := s.id_counter,
            stack := ⟨.ReplaceAll s.lines :: s.stack.undos, []⟩ } := by
        simp [clear, he, UndoStackG.push_and_clear_redos]
      rw [hc]
      exact ⟨.ReplaceAll s.lines, .Clear, rfl, rfl, rfl, rfl⟩

/-- Mutations preserve sortedness and the id-counter freshness bound. -/
theorem op_preserves (op : Op) (s s' : St) (hs : SortedKeys s.lines)
    (hk : keysLt s.lines s.id_counter) (h : applyOp op s = some s') :
    SortedKeys s'.lines ∧ keysLt s'.lines s'.id_counter := by
  cases op with
  | add t =>
    simp only [applyOp, Option.some_inj] at h
    subst h
    exact ⟨sortedKeys_insert hs,
      keysLt_insert (keysLt_mono hk (Nat.le_succ _)) (Nat.lt_succ_self _)⟩
  | edit id t =>
    simp only [applyOp] at h
    cases hg : mapGet s.lines id with
    | none => simp [set_text, hg] at h
    | some line =>
      rw [set_text_eq t hg] at h
      by_cases hc : line.text = trim t
      · simp [hc] at h
        subst h
        exact ⟨hs, hk⟩
      · simp [hc] at h
        subst h
        have hid : id < s.id_counter := hk _ (mapGet_mem hg)
        exact ⟨sortedKeys_insert hs, keysLt_insert hk hid⟩
  | remove id =>
    simp only [applyOp, remove_line] at h
    cases hg : mapGet s.lines id with
    | none => simp [hg] at h
    | some line =>
      simp only [hg, Option.some_inj] at h
      subst h
      exact ⟨sortedKeys_erase hs, keysLt_erase hk⟩
  | clearAll =>
    simp only [applyOp, Option.some_inj] at h
    subst h
    by_cases he : mapIsEmpty s.lines
    · simp only [clear, he, if_pos]
      exact ⟨hs, hk⟩
    · have hc : clear s =
          { lines := [], id_counter := s.id_counter,
            stack := ⟨.ReplaceAll s.lines :: s.stack.undos, []⟩ } := by
        simp [clear, he, UndoStackG.push_and_clear_redos]
      rw [hc]
      exact ⟨List.Pairwise.nil, fun p hp => absurd hp (List.not_mem_nil p)⟩

/-- A successful mutation sequence deposits a block of undo entries on top of
the stack; replaying that block undoes the whole sequence exactly, and
replaying the produced redo block redoes it exactly. -/
theorem seq_inverts (ops : List Op) (s s' : St) (hs : SortedKeys s.lines)
    (hk : keysLt s.lines s.id_counter) (h : applySeq ops s = some s') :
    SortedKeys s'.lines ∧ keysLt s'.lines s'.id_counter ∧
    ∃ es rs, es.length ≤ ops.length ∧ rs.length = es.length ∧
      s'.stack.undos = es ++ s.stack.undos ∧
      (es = [] → s' = s) ∧ (es ≠ [] → s'.stack.redos = []) ∧
      (∀ rs0, undoMany es s'.lines rs0 = some (s.lines, rs ++ rs0)) ∧
      (∀ us0, redoMany rs s.lines us0 = some (s'.lines, es ++ us0)) := by
  induction ops generalizing s with
  | nil =>
    simp only [applySeq, Option.some_inj] at h
    subst h
    refine ⟨hs, hk, [], [], by simp, by simp, by simp, fun _ => rfl,
      fun hne => absurd rfl hne, fun rs0 => by simp [undoMany], fun us0 => by simp [redoMany]⟩
  | cons op ops ih =>
    simp only [applySeq] at h
    cases hop : applyOp op s with
    | none =>
      rw [hop] at h
      exact absurd h (by simp)
    | some t =>
      rw [hop] at h
      obtain ⟨hst, hkt⟩ := op_preserves op s t hs hk hop
      obtain ⟨hs', hk', es', rs', hlen, hrslen, hundos, hnil, hredos, hUM, hRM⟩ :=
        ih t hst hkt h
      rcases op_inverts op s t hs hk hop with heq | ⟨e, r, he1, he2, he3, he4⟩
      · subst heq
        exact ⟨hs', hk', es', rs', Nat.le_succ_of_le hlen, hrslen, hundos, hnil, hredos,
          hUM, hRM⟩
      · refine ⟨hs', hk', es' ++ [e], r :: rs', ?_, ?_, ?_, ?_, ?_, ?_, ?_⟩
        · simp only [List.length_append, List.length_cons, List.length_nil, List.length]
          omega
        · simp only [List.length_cons, List.length_append, List.length_nil]
          omega
        · rw [hundos, he1, List.append_assoc]
          rfl
        · intro habs
          exact absurd habs (by simp)
        · intro _
          by_cases hes : es' = []
          · subst hes
            rw [hnil rfl]
            exact he2
          · exact hredos hes
        · intro rs0
          rw [undoMany_append, hUM rs0]
          simp [undoMany, he3]
        · intro us0
          simp only [redoMany, he4]
          rw [hRM (e :: us0), List.append_assoc]
          rfl

/-- Running `undo` at least as many times as there are undo entries empties
the stack, transforming the lines by the entry block. -/
theorem undoN_run (es : List UndoEntry) (n : Nat) (s : St) (m : LineMap)
    (rs' : List RedoEntry) (h : s.stack.undos = es)
    (hm : undoMany es s.lines s.stack.redos = some (m, rs'))
    (hn : es.length ≤ n) :
    undoN n s = some ⟨m, s.id_counter, ⟨[], rs'⟩⟩ := by
  induction es generalizing s n with
  | nil =>
    simp only [undoMany, Option.some_inj, Prod.mk.injEq] at hm
    obtain ⟨hm1, hm2⟩ := hm
    rw [undoN_nil h n]
    obtain ⟨lines, idc, undos, redos⟩ := s
    simp only at h hm1 hm2
    subst h hm1 hm2
    rfl
  | cons e es ihe =>
    cases n with
    | zero => simp at hn
    | succ n =>
      simp only [undoMany] at hm
      cases ha : undoApply s.lines e with
      | none =>
        rw [ha] at hm
        simp at hm
      | some p =>
        obtain ⟨m1, r⟩ := p
        rw [ha] at hm
        have hu : undo s = some ⟨m1, s.id_counter, ⟨es, r :: s.stack.redos⟩⟩ := by
          obtain ⟨lines, idc, undos, redos⟩ := s
          simp only at h ha ⊢
          subst h
          simp [undo, ha]
        simp only [undoN, hu]
        exact ihe n ⟨m1, s.id_counter, ⟨es, r :: s.stack.redos⟩⟩ rfl hm (by simpa using hn)

/-- Running `redo` at least as many times as there are redo entries empties
the stack, transforming the lines by the entry block. -/
theorem redoN_run (rs : List RedoEntry) (n : Nat) (s : St) (m : LineMap)
    (us' : List UndoEntry) (h : s.stack.redos = rs)
    (hm : redoMany rs s.lines s.stack.undos = some (m, us'))
    (hn : rs.length ≤ n) :
    redoN n s = some ⟨m, s.id_counter, ⟨us', []⟩⟩ := by
  induction rs generalizing s n with
  | nil =>
    simp only [redoMany, Option.some_inj, Prod.mk.injEq] at hm
    obtain ⟨hm1, hm2⟩ := hm
    rw [redoN_nil h n]
    obtain ⟨lines, idc, undos, redos⟩ := s
    simp only at h hm1 hm2
    subst h hm1 hm2
    rfl
  | cons r rs ihr =>
    cases n with
    | zero => simp at hn
    | succ n =>
      simp only [redoMany] at hm
      cases ha : redoApply s.lines r with
      | none =>
        rw [ha] at hm
        simp at hm
      | some p =>
        obtain ⟨m1, e⟩ := p
        rw [ha] at hm
        have hr : redo s = some ⟨m1, s.id_counter, ⟨e :: s.stack.undos, rs⟩⟩ := by
          obtain ⟨lines, idc, undos, redos⟩ := s
          simp only at h ha ⊢
          subst h
          simp [redo, ha]
        simp only [redoN, hr]
        exact ihr n ⟨m1, s.id_counter, ⟨e :: s.stack.undos, rs⟩⟩ rfl hm (by simpa using hn)

/-- C1: starting from any well-formed state with empty history, after a
successful sequence of `n` mutations, `n` undos restore the exact
pre-sequence ledger (ids, texts and versions), and `n` redos then restore the
exact post-sequence ledger. -/
theorem c1_undo_redo_roundtrip (ops : List Op) (s0 s1 : St)
    (hs : SortedKeys s0.lines) (hk : keysLt s0.lines s0.id_counter)
    (hu : s0.stack.undos = []) (hr : s0.stack.redos = [])
    (h : applySeq ops s0 = some s1) :
    ∃ s2 s3, undoN ops.length s1 = some s2 ∧ s2.lines = s0.lines ∧
      redoN ops.length s2 = some s3 ∧ s3.lines = s1.lines := by
  obtain ⟨hs1, hk1, es, rs, hlen, hrslen, hundos, hnilcase, hredoscase, hUM, hRM⟩ :=
    seq_inverts ops s0 s1 hs hk h
  by_cases hes : es = []
  · subst hes
    have h10 : s1 = s0 := hnilcase rfl
    subst h10
    exact ⟨s1, s1, undoN_nil hu _, rfl, redoN_nil hr _, rfl⟩
  · have hredos : s1.stack.redos = [] := hredoscase hes
    have hundos1 : s1.stack.undos = es := by rw [hundos, hu, List.append_nil]
    have hUM0 : undoMany es s1.lines s1.stack.redos = some (s0.lines, rs) := by
      rw [hredos]
      simpa using hUM []
    have h2 := undoN_run es ops.length s1 s0.lines rs hundos1 hUM0 hlen
    have hRM0 : redoMany rs s0.lines ([] : List UndoEntry) = some (s1.lines, es) := by
      simpa using hRM []
    have h3 := redoN_run rs ops.length ⟨s0.lines, s1.id_counter, ⟨[], rs⟩⟩ s1.lines es rfl
      hRM0 (by omega)
    exact ⟨⟨s0.lines, s1.id_counter, ⟨[], rs⟩⟩, ⟨s1.lines, s1.id_counter, ⟨es, []⟩⟩,
      h2, rfl, h3, rfl⟩

def c1St : St := ⟨[], 0, ⟨[], []⟩⟩

/-- Witness for C1: add a line then edit it, from the empty startup state. -/
theorem c1_undo_redo_roundtrip_witness :
    ∃ s2 s3,
      undoN 2 (⟨[(0, ⟨1, "yo"⟩)], 1, ⟨[.Edit 0 "hi", .Remove 0], []⟩⟩ : St) = some s2 ∧
      s2.lines = c1St.lines ∧
      redoN 2 s2 = some s3 ∧
      s3.lines = ([(0, ⟨1, "yo"⟩)] : LineMap) :=
  c1_undo_redo_roundtrip [.add "hi", .edit 0 "yo"] c1St
    (⟨[(0, ⟨1, "yo"⟩)], 1, ⟨[.Edit 0 "hi", .Remove 0], []⟩⟩ : St)
    (by simp [SortedKeys, c1St]) (by simp [keysLt, c1St]) rfl rfl (by decide)

/-! ### Invariant helpers for the instrumented semantics -/

theorem mapOK_get {m : GLineMap} {id : Nat} {l : GLine} (h : mapOK m)
    (hg : mapGet m id = some l) : lineOK l :=
  h _ (mapGet_mem hg)

theorem mapOK_insert {m : GLineMap} {id : Nat} {l : GLine} (h : mapOK m)
    (hl : lineOK l) : mapOK (mapInsert id l m) := by
  intro p hp
  rcases mem_mapInsert hp with hp' | hp'
  · rw [hp']
    exact hl
  · exact h _ hp'

theorem mapOK_erase {m : GLineMap} {id : Nat} (h : mapOK m) :
    mapOK (mapErase id m) := fun _ hp => h _ (mem_mapErase hp)

theorem entryOKU_mono {c c' : Nat} {e : GUndoEntry} (hcc : c ≤ c')
    (h : entryOKU c e) : entryOKU c' e := by
  cases e with
  | Add id l => exact ⟨lt_of_lt_of_le h.1 hcc, h.2⟩
  | Remove id => exact lt_of_lt_of_le h hcc
  | Edit id t => exact lt_of_lt_of_le h hcc
  | ReplaceAll old => exact ⟨h.1, keysLt_mono h.2.1 hcc, h.2.2⟩

theorem entryOKR_mono {c c' : Nat} {r : GRedoEntry} (hcc : c ≤ c')
    (h : entryOKR c r) : entryOKR c' r := by
  cases r with
  | Add id l => exact ⟨lt_of_lt_of_le h.1 hcc, h.2⟩
  | Remove id => exact lt_of_lt_of_le h hcc
  | Edit id t => exact lt_of_lt_of_le h hcc
  | Clear => trivial

/-! ### Projection lemmas -/

theorem mapGet_projMap (m : GLineMap) (id : Nat) :
    mapGet (projMap m) id = (mapGet m id).map projLine := by
  induction m with
  | nil => rfl
  | cons p rest ih =>
    obtain ⟨k, w⟩ := p
    by_cases hk : id = k
    · simp [projMap, mapGet, hk]
    · simp only [projMap, List.map_cons, mapGet, if_neg hk]
      exact ih

theorem projMap_insert (m : GLineMap) (id : Nat) (l : GLine) :
    projMap (mapInsert id l m) = mapInsert id (projLine l) (projMap m) := by
  induction m with
  | nil => rfl
  | cons p rest ih =>
    obtain ⟨k, w⟩ := p
    by_cases h1 : id < k
    · simp [projMap, mapInsert, h1]
    · by_cases h2 : id = k
      · simp [projMap, mapInsert, h1, h2]
      · simp only [projMap, List.map_cons, mapInsert, if_neg h1, if_neg h2]
        simpa [projMap] using ih

theorem projMap_erase (m : GLineMap) (id : Nat) :
    projMap (mapErase id m) = mapErase id (projMap m) := by
  induction m with
  | nil => rfl
  | cons p rest ih =>
    obtain ⟨k, w⟩ := p
    by_cases h1 : k = id
    · simp [projMap, mapErase, h1]
    · simp only [projMap, List.map_cons, mapErase, if_neg h1]
      simpa [projMap] using ih

theorem projMap_isEmpty (m : GLineMap) : mapIsEmpty (projMap m) = mapIsEmpty m := by
  cases m <;> rfl

theorem projMap_length (m : GLineMap) : (projMap m).length = m.length := by
  simp [projMap]

theorem projMap_normalize (m : GLineMap) :
    projMap (g_normalize_line_map m) = normalize_line_map (projMap m) := by
  have h1 : projMap (g_normalize_line_map m) =
      List.zip (List.range m.length)
        ((m.map fun p => ({ version := 0, text := p.2.text, net := 0 } : GLine)).map projLine) := by
    simp only [projMap, g_normalize_line_map, List.zip_map_right]
    rfl
  rw [h1]
  simp only [normalize_line_map, projMap_length]
  congr 1
  simp only [List.map_map, projMap]
  congr 1

theorem projMap_lift (m : LineMap) : projMap (liftMap m) = m := by
  simp only [projMap, liftMap, List.map_map]
  have : ((fun p : Nat × GLine => (p.1, projLine p.2)) ∘ fun p : Nat × Line => (p.1, liftLine p.2)) =
      id := by
    funext p
    rfl
  rw [this, List.map_id]

theorem projSt_initial (m : GLineMap) :
    projSt (g_initial_state m) = initial_state (projMap m) := by
  simp only [projSt, g_initial_state, initial_state, projMap_normalize, List.map_nil]
  have hl : (normalize_line_map (projMap m)).length = (g_normalize_line_map m).length := by
    rw [← projMap_normalize, projMap_length]
  rw [hl]

theorem undoApply_proj (m : GLineMap) (e : GUndoEntry) :
    undoApply (projMap m) (projUndoEntry e) =
      (g_undoApply m e).map (fun p => (projMap p.1, projRedoEntry p.2)) := by
  cases e with
  | Add id l =>
    simp [projUndoEntry, undoApply, g_undoApply, projMap_insert, projRedoEntry]
  | Remove id =>
    cases hg : mapGet m id with
    | none => simp [projUndoEntry, undoApply, g_undoApply, mapGet_projMap, hg]
    | some l =>
      simp [projUndoEntry, undoApply, g_undoApply, mapGet_projMap, hg, projMap_erase,
        projRedoEntry]
  | Edit id old =>
    cases hg : mapGet m id with
    | none => simp [projUndoEntry, undoApply, g_undoApply, mapGet_projMap, hg]
    | some l =>
      simp only [projUndoEntry, undoApply, g_undoApply, mapGet_projMap, hg, Option.map_some]
      simp [projMap_insert, projRedoEntry, projLine]
  | ReplaceAll old =>
    simp [projUndoEntry, undoApply, g_undoApply, projRedoEntry]

theorem redoApply_proj (m : GLineMap) (r : GRedoEntry) :
    redoApply (projMap m) (projRedoEntry r) =
      (g_redoApply m r).map (fun p => (projMap p.1, projUndoEntry p.2)) := by
  cases r with
  | Add id l =>
    simp [projRedoEntry, redoApply, g_redoApply, projMap_insert, projUndoEntry]
  | Remove id =>
    cases hg : mapGet m id with
    | none => simp [projRedoEntry, redoApply, g_redoApply, mapGet_projMap, hg]
    | some l =>
      simp [projRedoEntry, redoApply, g_redoApply, mapGet_projMap, hg, projMap_erase,
        projUndoEntry]
  | Edit id nt =>
    cases hg : mapGet m id with
    | none => simp [projRedoEntry, redoApply, g_redoApply, mapGet_projMap, hg]
    | some l =>
      simp only [projRedoEntry, redoApply, g_redoApply, mapGet_projMap, hg, Option.map_some]
      simp [projMap_insert, projUndoEntry, projLine]
  | Clear =>
    simp [projRedoEntry, redoApply, g_redoApply, projUndoEntry, projMap]

theorem undo_cons {s : St} {e : UndoEntry} {rest : List UndoEntry}
    (h : s.stack.undos = e :: rest) :
    undo s = (undoApply s.lines e).map
      (fun p => ⟨p.1, s.id_counter, ⟨rest, p.2 :: s.stack.redos⟩⟩) := by
  obtain ⟨lines, idc, undos, redos⟩ := s
  simp only at h
  subst h
  cases ha : undoApply lines e <;> simp [undo, ha]

theorem redo_cons {s : St} {r : RedoEntry} {rest : List RedoEntry}
    (h : s.stack.redos = r :: rest) :
    redo s = (redoApply s.lines r).map
      (fun p => ⟨p.1, s.id_counter, ⟨p.2 :: s.stack.undos, rest⟩⟩) := by
  obtain ⟨lines, idc, undos, redos⟩ := s
  simp only at h
  subst h
  cases ha : redoApply lines r <;> simp [redo, ha]

theorem g_undo_cons {s : GSt} {e : GUndoEntry} {rest : List GUndoEntry}
    (h : s.stack.undos = e :: rest) :
    g_undo s = (g_undoApply s.lines e).map
      (fun p => ⟨p.1, s.id_counter, ⟨rest, p.2 :: s.stack.redos⟩⟩) := by
  obtain ⟨lines, idc, undos, redos⟩ := s
  simp only at h
  subst h
  cases ha : g_undoApply lines e <;> simp [g_undo, ha]

theorem g_redo_cons {s : GSt} {r : GRedoEntry} {rest : List GRedoEntry}
    (h : s.stack.redos = r :: rest) :
    g_redo s = (g_redoApply s.lines r).map
      (fun p => ⟨p.1, s.id_counter, ⟨p.2 :: s.stack.undos, rest⟩⟩) := by
  obtain ⟨lines, idc, undos, redos⟩ := s
  simp only at h
  subst h
  cases ha : g_redoApply lines r <;> simp [g_redo, ha]

theorem g_undo_nil {s : GSt} (h : s.stack.undos = []) : g_undo s = some s := by
  obtain ⟨lines, idc, undos, redos⟩ := s
  simp only at h
  subst h
  rfl

theorem g_redo_nil {s : GSt} (h : s.stack.redos = []) : g_redo s = some s := by
  obtain ⟨lines, idc, undos, redos⟩ := s
  simp only at h
  subst h
  rfl

/-- Closed form of `g_set_text` once the lookup has succeeded. -/
theorem g_set_text_eq {s : GSt} {id : Nat} {l : GLine} (new_text : String)
    (h : mapGet s.lines id = some l) :
    g_set_text id new_text s =
      if l.text = trim new_text then some (s, false)
      else
        some (⟨mapInsert id ⟨l.version + 1, trim new_text, l.net + 1⟩ s.lines,
               s.id_counter, ⟨.Edit id l.text :: s.stack.undos, []⟩⟩, true) := by
  simp [g_set_text, h, UndoStackG.push_and_clear_redos]

/-- Forward simulation: every source-semantics step from the projection of an
instrumented state is matched by an instrumented step with the same
projection.  This is the statement that the ghost counter changes nothing
observable. -/
theorem sim_step (st : Step) (gs : GSt) (s' : St)
    (h : applyStep st (projSt gs) = some s') :
    ∃ gs', g_applyStep st gs = some gs' ∧ projSt gs' = s' := by
  cases st with
  | op o =>
    cases o with
    | add t =>
      simp only [applyStep, applyOp, Option.some_inj] at h
      refine ⟨g_add_entry t gs, rfl, ?_⟩
      rw [← h]
      simp [projSt, g_add_entry, add_entry, projMap_insert, UndoStackG.push_and_clear_redos,
        projUndoEntry, GLine.new, Line.new, projLine]
    | edit id t =>
      simp only [applyStep, applyOp] at h
      cases hg : mapGet gs.lines id with
      | none =>
        have hpg : mapGet (projSt gs).lines id = none := by
          simp [projSt, mapGet_projMap, hg]
        simp [set_text, hpg] at h
      | some gl =>
        have hpg : mapGet (projSt gs).lines id = some (projLine gl) := by
          simp [projSt, mapGet_projMap, hg]
        rw [set_text_eq t hpg] at h
        by_cases hc : gl.text = trim t
        · have hc' : (projLine gl).text = trim t := hc
          rw [if_pos hc'] at h
          simp only [Option.map_some', Option.some_inj] at h
          refine ⟨gs, ?_, h⟩
          simp [g_applyStep, g_applyOp, g_set_text_eq t hg, hc]
        · have hc' : ¬ (projLine gl).text = trim t := hc
          rw [if_neg hc'] at h
          simp only [Option.map_some', Option.some_inj] at h
          refine ⟨⟨mapInsert id ⟨gl.version + 1, trim t, gl.net + 1⟩ gs.lines,
            gs.id_counter, ⟨.Edit id gl.text :: gs.stack.undos, []⟩⟩, ?_, ?_⟩
          · simp [g_applyStep, g_applyOp, g_set_text_eq t hg, hc]
          · rw [← h]
            simp [projSt, projMap_insert, projUndoEntry, projLine]
    | remove id =>
      simp only [applyStep, applyOp, remove_line] at h
      cases hg : mapGet gs.lines id with
      | none =>
        have hpg : mapGet (projSt gs).lines id = none := by
          simp [projSt, mapGet_projMap, hg]
        rw [hpg] at h
        exact absurd h (by simp)
      | some gl =>
        have hpg : mapGet (projSt gs).lines id = some (projLine gl) := by
          simp [projSt, mapGet_projMap, hg]
        rw [hpg] at h
        simp only [Option.some_inj] at h
        refine ⟨⟨mapErase id gs.lines, gs.id_counter,
          ⟨.Add id gl :: gs.stack.undos, []⟩⟩, ?_, ?_⟩
        · simp [g_applyStep, g_applyOp, g_remove_line, hg, UndoStackG.push_and_clear_redos]
        · rw [← h]
          simp [projSt, projMap_erase, projUndoEntry, UndoStackG.push_and_clear_redos]
    | clearAll =>
      simp only [applyStep, applyOp, Option.some_inj] at h
      by_cases he : mapIsEmpty gs.lines
      · have hpe : mapIsEmpty (projSt gs).lines = true := by
          simp only [projSt]
          rw [projMap_isEmpty]
          exact he
        refine ⟨gs, ?_, ?_⟩
        · simp [g_applyStep, g_applyOp, g_clear, he]
        · rw [← h]
          simp [clear, hpe]
      · have hpe : mapIsEmpty (projSt gs).lines = false := by
          simp only [projSt]
          rw [projMap_isEmpty]
          simpa using he
        refine ⟨⟨[], gs.id_counter, ⟨.ReplaceAll gs.lines :: gs.stack.undos, []⟩⟩, ?_, ?_⟩
        · simp [g_applyStep, g_applyOp, g_clear, he, UndoStackG.push_and_clear_redos]
        · rw [← h]
          have hc2 : clear (projSt gs) =
              { lines := [], id_counter := (projSt gs).id_counter,
                stack := ⟨.ReplaceAll (projSt gs).lines :: (projSt gs).stack.undos, []⟩ } := by
            simp [clear, hpe, UndoStackG.push_and_clear_redos]
          rw [hc2]
          simp [projSt, projUndoEntry, projMap]
  | undoStep =>
    simp only [applyStep] at h
    cases hu : gs.stack.undos with
    | nil =>
      have hpu : (projSt gs).stack.undos = [] := by simp [projSt, hu]
      rw [undo_nil hpu] at h
      simp only [Option.some_inj] at h
      exact ⟨gs, g_undo_nil hu, h⟩
    | cons e rest =>
      have hpu : (projSt gs).stack.undos = projUndoEntry e :: rest.map projUndoEntry := by
        simp [projSt, hu]
      rw [undo_cons hpu] at h
      have hl : (projSt gs).lines = projMap gs.lines := rfl
      rw [hl, undoApply_proj] at h
      cases hga : g_undoApply gs.lines e with
      | none =>
        rw [hga] at h
        exact absurd h (by simp)
      | some p =>
        obtain ⟨m', r⟩ := p
        rw [hga] at h
        simp only [Option.map_some', Option.some_inj] at h
        refine ⟨⟨m', gs.id_counter, ⟨rest, r :: gs.stack.redos⟩⟩, ?_, ?_⟩
        · simp [g_applyStep, g_undo_cons hu, hga]
        · rw [← h]
          simp [projSt]
  | redoStep =>
    simp only [applyStep] at h
    cases hr : gs.stack.redos with
    | nil =>
      have hpr : (projSt gs).stack.redos = [] := by simp [projSt, hr]
      rw [redo_nil hpr] at h
      simp only [Option.some_inj] at h
      exact ⟨gs, g_redo_nil hr, h⟩
    | cons r rest =>
      have hpr : (projSt gs).stack.redos = projRedoEntry r :: rest.map projRedoEntry := by
        simp [projSt, hr]
      rw [redo_cons hpr] at h
      have hl : (projSt gs).lines = projMap gs.lines := rfl
      rw [hl, redoApply_proj] at h
      cases hga : g_redoApply gs.lines r with
      | none =>
        rw [hga] at h
        exact absurd h (by simp)
      | some p =>
        obtain ⟨m', e⟩ := p
        rw [hga] at h
        simp only [Option.map_some', Option.some_inj] at h
        refine ⟨⟨m', gs.id_counter, ⟨e :: gs.stack.undos, rest⟩⟩, ?_, ?_⟩
        · simp [g_applyStep, g_redo_cons hr, hga]
        · rw [← h]
          simp [projSt]

/-- Every reachable source state is the projection of a reachable
instrumented state. -/
theorem reachable_lift (s : St) (h : Reachable s) :
    ∃ gs, GReachable gs ∧ projSt gs = s := by
  induction h with
  | start m =>
    refine ⟨g_initial_state (liftMap m), .start _, ?_⟩
    rw [projSt_initial, projMap_lift]
  | step st _ hstep ih =>
    obtain ⟨gs, hgr, hproj⟩ := ih
    rw [← hproj] at hstep
    obtain ⟨gs', hgs', hproj'⟩ := sim_step st gs _ hstep
    exact ⟨gs', .step st hgr hgs', hproj'⟩

/-! ### The invariant holds in all reachable instrumented states -/

theorem sortedKeys_zip (as : List Nat) (vs : List α)
    (h : List.Pairwise (· < ·) as) : SortedKeys (List.zip as vs) := by
  induction as generalizing vs with
  | nil => simp [SortedKeys]
  | cons a as ih =>
    cases vs with
    | nil => simp [SortedKeys]
    | cons v vs =>
      simp only [List.zip_cons_cons]
      refine List.pairwise_cons.mpr ⟨?_, ih vs (List.pairwise_cons.mp h).2⟩
      intro p hp
      exact (List.pairwise_cons.mp h).1 _ (List.of_mem_zip hp).1

theorem keysLt_zip_range (n : Nat) (vs : List α) :
    keysLt (List.zip (List.range n) vs) n :=
  fun _ hp => List.mem_range.mp (List.of_mem_zip hp).1

theorem ginv_initial (m : GLineMap) : GInv (g_initial_state m) := by
  have hstate : g_initial_state m =
      ⟨List.zip (List.range m.length) (m.map fun p => ⟨0, p.2.text, 0⟩),
       (g_normalize_line_map m).length, ⟨[], []⟩⟩ := rfl
  have hlen : (g_normalize_line_map m).length = m.length := by
    simp [g_normalize_line_map]
  rw [hstate]
  refine ⟨?_, ?_, ?_, ?_, ?_, trivial, trivial⟩
  · exact sortedKeys_zip _ _ (List.pairwise_lt_range _)
  · rw [hlen]
    exact keysLt_zip_range _ _
  · intro p hp
    have h2 := (List.of_mem_zip hp).2
    simp only [List.mem_map] at h2
    obtain ⟨q, _, hq⟩ := h2
    rw [← hq]
    rfl
  · intro e he
    exact absurd he (List.not_mem_nil _)
  · intro r hr
    exact absurd hr (List.not_mem_nil _)

/-- Mutations preserve the invariant. -/
theorem ginv_op (op : Op) (gs gs' : GSt) (hI : GInv gs)
    (h : g_applyOp op gs = some gs') : GInv gs' := by
  obtain ⟨hsort, hklt, hmok, hue, hre, huok, hrok⟩ := hI
  cases op with
  | add t =>
    simp only [g_applyOp, Option.some_inj] at h
    subst h
    refine ⟨sortedKeys_insert hsort,
      keysLt_insert (keysLt_mono hklt (Nat.le_succ _)) (Nat.lt_succ_self _),
      mapOK_insert hmok rfl, ?_, ?_, ?_, trivial⟩
    · intro e he
      simp only [g_add_entry, UndoStackG.push_and_clear_redos, List.mem_cons] at he
      rcases he with he | he
      · simp [he, entryOKU, g_add_entry]
      · exact entryOKU_mono (Nat.le_succ _) (hue e he)
    · intro r hr
      simp only [g_add_entry, UndoStackG.push_and_clear_redos] at hr
      exact absurd hr (List.not_mem_nil _)
    · show UndosOK (mapInsert gs.id_counter (GLine.new t) gs.lines)
        (.Remove gs.id_counter :: gs.stack.undos)
      refine ⟨GLine.new t, mapGet_insert_self _, ?_⟩
      rw [mapErase_insert (keysLt_get_none hklt le_rfl)]
      exact huok
  | edit id t =>
    simp only [g_applyOp] at h
    cases hg : mapGet gs.lines id with
    | none => simp [g_set_text, hg] at h
    | some gl =>
      rw [g_set_text_eq t hg] at h
      by_cases hc : gl.text = trim t
      · rw [if_pos hc] at h
        simp only [Option.map_some', Option.some_inj] at h
        subst h
        exact ⟨hsort, hklt, hmok, hue, hre, huok, hrok⟩
      · rw [if_neg hc] at h
        simp only [Option.map_some', Option.some_inj] at h
        subst h
        have hid : id < gs.id_counter := hklt _ (mapGet_mem hg)
        have hglok : (gl.version : Int) = gl.net := mapOK_get hmok hg
        refine ⟨sortedKeys_insert hsort, keysLt_insert hklt hid, ?_, ?_, ?_, ?_, trivial⟩
        · apply mapOK_insert hmok
          show ((gl.version + 1 : Nat) : Int) = gl.net + 1
          omega
        · intro e he
          simp only [List.mem_cons] at he
          rcases he with he | he
          · simp [he, entryOKU, hid]
          · exact hue e he
        · intro r hr
          exact absurd hr (List.not_mem_nil _)
        · show UndosOK (mapInsert id ⟨gl.version + 1, trim t, gl.net + 1⟩ gs.lines)
            (.Edit id gl.text :: gs.stack.undos)
          refine ⟨⟨gl.version + 1, trim t, gl.net + 1⟩, mapGet_insert_self _,
            Nat.le_add_left _ _, ?_⟩
          show UndosOK (mapInsert id ⟨gl.version + 1 - 1, gl.text, gl.net + 1 - 1⟩
            (mapInsert id ⟨gl.version + 1, trim t, gl.net + 1⟩ gs.lines)) gs.stack.undos
          have e1 : gl.version + 1 - 1 = gl.version := by omega
          have e2 : gl.net + 1 - 1 = gl.net := by omega
          rw [e1, e2, mapInsert_insert]
          have e3 : (⟨gl.version, gl.text, gl.net⟩ : GLine) = gl := rfl
          rw [e3, mapInsert_get_self hsort hg]
          exact huok
  | remove id =>
    simp only [g_applyOp, g_remove_line] at h
    cases hg : mapGet gs.lines id with
    | none => simp [hg] at h
    | some gl =>
      simp only [hg, Option.some_inj] at h
      subst h
      have hid : id < gs.id_counter := hklt _ (mapGet_mem hg)
      refine ⟨sortedKeys_erase hsort, keysLt_erase hklt, mapOK_erase hmok, ?_, ?_, ?_, trivial⟩
      · intro e he
        simp only [UndoStackG.push_and_clear_redos, List.mem_cons] at he
        rcases he with he | he
        · rw [he]
          exact ⟨hid, mapOK_get hmok hg⟩
        · exact hue e he
      · intro r hr
        simp only [UndoStackG.push_and_clear_redos] at hr
        exact absurd hr (List.not_mem_nil _)
      · show UndosOK (mapErase id gs.lines) (.Add id gl :: gs.stack.undos)
        refine ⟨mapGet_erase_self hsort, ?_⟩
        rw [mapInsert_erase hsort hg]
        exact huok
  | clearAll =>
    simp only [g_applyOp, Option.some_inj] at h
    subst h
    by_cases he : mapIsEmpty gs.lines
    · have hc : g_clear gs = gs := by simp [g_clear, he]
      rw [hc]
      exact ⟨hsort, hklt, hmok, hue, hre, huok, hrok⟩
    · have hc : g_clear gs =
          ⟨[], gs.id_counter, ⟨.ReplaceAll gs.lines :: gs.stack.undos, []⟩⟩ := by
        simp [g_clear, he, UndoStackG.push_and_clear_redos]
      rw [hc]
      refine ⟨List.Pairwise.nil, fun p hp => absurd hp (List.not_mem_nil _),
        fun p hp => absurd hp (List.not_mem_nil _), ?_,
        fun r hr => absurd hr (List.not_mem_nil _), ?_, trivial⟩
      · intro e he'
        simp only [List.mem_cons] at he'
        rcases he' with he' | he'
        · rw [he']
          exact ⟨hsort, hklt, hmok⟩
        · exact hue e he'
      · show UndosOK ([] : GLineMap) (.ReplaceAll gs.lines :: gs.stack.undos)
        exact ⟨rfl, huok⟩

/-- `undo` preserves the invariant. -/
theorem ginv_undo (gs gs' : GSt) (hI : GInv gs) (h : g_undo gs = some gs') : GInv gs' := by
  obtain ⟨hsort, hklt, hmok, hue, hre, huok, hrok⟩ := hI
  cases hu : gs.stack.undos with
  | nil =>
    rw [g_undo_nil hu] at h
    simp only [Option.some_inj] at h
    subst h
    exact ⟨hsort, hklt, hmok, hue, hre, huok, hrok⟩
  | cons e rest =>
    rw [g_undo_cons hu] at h
    rw [hu] at huok
    have htail : ∀ e' ∈ rest, entryOKU gs.id_counter e' := fun e' he' =>
      hue e' (by rw [hu]; exact List.mem_cons_of_mem _ he')
    have hhead : entryOKU gs.id_counter e :=
      hue e (by rw [hu]; exact List.mem_cons_self _ _)
    cases e with
    | Add id l =>
      obtain ⟨hnone, hrest⟩ := huok
      simp only [g_undoApply, Option.map_some', Option.some_inj] at h
      subst h
      obtain ⟨hid, hlok⟩ := hhead
      refine ⟨sortedKeys_insert hsort, keysLt_insert hklt hid, mapOK_insert hmok hlok,
        htail, ?_, hrest, ?_⟩
      · intro r hr
        simp only [List.mem_cons] at hr
        rcases hr with hr | hr
        · rw [hr]
          exact hid
        · exact hre r hr
      · show RedosOK (mapInsert id l gs.lines) (.Remove id :: gs.stack.redos)
        refine ⟨l, mapGet_insert_self _, ?_⟩
        rw [mapErase_insert hnone]
        exact hrok
    | Remove id =>
      obtain ⟨l, hgl, hrest⟩ := huok
      simp only [g_undoApply, hgl, Option.map_some', Option.some_inj] at h
      subst h
      refine ⟨sortedKeys_erase hsort, keysLt_erase hklt, mapOK_erase hmok,
        htail, ?_, hrest, ?_⟩
      · intro r hr
        simp only [List.mem_cons] at hr
        rcases hr with hr | hr
        · rw [hr]
          exact ⟨hhead, mapOK_get hmok hgl⟩
        · exact hre r hr
      · show RedosOK (mapErase id gs.lines) (.Add id l :: gs.stack.redos)
        refine ⟨mapGet_erase_self hsort, ?_⟩
        rw [mapInsert_erase hsort hgl]
        exact hrok
    | Edit id old =>
      obtain ⟨l, hgl, hv, hrest⟩ := huok
      simp only [g_undoApply, hgl, Option.map_some', Option.some_inj] at h
      subst h
      have hlok : (l.version : Int) = l.net := mapOK_get hmok hgl
      refine ⟨sortedKeys_insert hsort, keysLt_insert hklt hhead, ?_, htail, ?_, hrest, ?_⟩
      · apply mapOK_insert hmok
        show ((l.version - 1 : Nat) : Int) = l.net - 1
        omega
      · intro r hr
        simp only [List.mem_cons] at hr
        rcases hr with hr | hr
        · rw [hr]
          exact hhead
        · exact hre r hr
      · show RedosOK (mapInsert id ⟨l.version - 1, old, l.net - 1⟩ gs.lines)
          (.Edit id l.text :: gs.stack.redos)
        refine ⟨⟨l.version - 1, old, l.net - 1⟩, mapGet_insert_self _, ?_⟩
        show RedosOK (mapInsert id ⟨l.version - 1 + 1, l.text, l.net - 1 + 1⟩
          (mapInsert id ⟨l.version - 1, old, l.net - 1⟩ gs.lines)) gs.stack.redos
        have e1 : l.version - 1 + 1 = l.version := by omega
        have e2 : l.net - 1 + 1 = l.net := by omega
        rw [e1, e2, mapInsert_insert]
        have e3 : (⟨l.version, l.text, l.net⟩ : GLine) = l := rfl
        rw [e3, mapInsert_get_self hsort hgl]
        exact hrok
    | ReplaceAll old =>
      obtain ⟨hnil, hrest⟩ := huok
      simp only [g_undoApply, Option.map_some', Option.some_inj] at h
      subst h
      obtain ⟨hsold, hkold, hmold⟩ := hhead
      refine ⟨hsold, hkold, hmold, htail, ?_, hrest, ?_⟩
      · intro r hr
        simp only [List.mem_cons] at hr
        rcases hr with hr | hr
        · rw [hr]
          trivial
        · exact hre r hr
      · show RedosOK ([] : GLineMap) gs.stack.redos
        rw [← hnil]
        exact hrok

/-- `redo` preserves the invariant. -/
theorem ginv_redo (gs gs' : GSt) (hI : GInv gs) (h : g_redo gs = some gs') : GInv gs' := by
  obtain ⟨hsort, hklt, hmok, hue, hre, huok, hrok⟩ := hI
  cases hr : gs.stack.redos with
  | nil =>
    rw [g_redo_nil hr] at h
    simp only [Option.some_inj] at h
    subst h
    exact ⟨hsort, hklt, hmok, hue, hre, huok, hrok⟩
  | cons r rest =>
    rw [g_redo_cons hr] at h
    rw [hr] at hrok
    have htail : ∀ r' ∈ rest, entryOKR gs.id_counter r' := fun r' hr' =>
      hre r' (by rw [hr]; exact List.mem_cons_of_mem _ hr')
    have hhead : entryOKR gs.id_counter r :=
      hre r (by rw [hr]; exact List.mem_cons_self _ _)
    cases r with
    | Add id l =>
      obtain ⟨hnone, hrest⟩ := hrok
      simp only [g_redoApply, Option.map_some', Option.some_inj] at h
      subst h
      obtain ⟨hid, hlok⟩ := hhead
      refine ⟨sortedKeys_insert hsort, keysLt_insert hklt hid, mapOK_insert hmok hlok,
        ?_, htail, ?_, hrest⟩
      · intro e he
        simp only [List.mem_cons] at he
        rcases he with he | he
        · rw [he]
          exact hid
        · exact hue e he
      · show UndosOK (mapInsert id l gs.lines) (.Remove id :: gs.stack.undos)
        refine ⟨l, mapGet_insert_self _, ?_⟩
        rw [mapErase_insert hnone]
        exact huok
    | Remove id =>
      obtain ⟨l, hgl, hrest⟩ := hrok
      simp only [g_redoApply, hgl, Option.map_some', Option.some_inj] at h
      subst h
      refine ⟨sortedKeys_erase hsort, keysLt_erase hklt, mapOK_erase hmok,
        ?_, htail, ?_, hrest⟩
      · intro e he
        simp only [List.mem_cons] at he
        rcases he with he | he
        · rw [he]
          exact ⟨hhead, mapOK_get hmok hgl⟩
        · exact hue e he
      · show UndosOK (mapErase id gs.lines) (.Add id l :: gs.stack.undos)
        refine ⟨mapGet_erase_self hsort, ?_⟩
        rw [mapInsert_erase hsort hgl]
        exact huok
    | Edit id nt =>
      obtain ⟨l, hgl, hrest⟩ := hrok
      simp only [g_redoApply, hgl, Option.map_some', Option.some_inj] at h
      subst h
      have hlok : (l.version : Int) = l.net := mapOK_get hmok hgl
      refine ⟨sortedKeys_insert hsort, keysLt_insert hklt hhead, ?_, ?_, htail, ?_, hrest⟩
      · apply mapOK_insert hmok
        show ((l.version + 1 : Nat) : Int) = l.net + 1
        omega
      · intro e he
        simp only [List.mem_cons] at he
        rcases he with he | he
        · rw [he]
          exact hhead
        · exact hue e he
      · show UndosOK (mapInsert id ⟨l.version + 1, nt, l.net + 1⟩ gs.lines)
          (.Edit id l.text :: gs.stack.undos)
        refine ⟨⟨l.version + 1, nt, l.net + 1⟩, mapGet_insert_self _,
          Nat.le_add_left _ _, ?_⟩
        show UndosOK (mapInsert id ⟨l.version + 1 - 1, l.text, l.net + 1 - 1⟩
          (mapInsert id ⟨l.version + 1, nt, l.net + 1⟩ gs.lines)) gs.stack.undos
        have e1 : l.version + 1 - 1 = l.version := by omega
        have e2 : l.net + 1 - 1 = l.net := by omega
        rw [e1, e2, mapInsert_insert]
        have e3 : (⟨l.version, l.text, l.net⟩ : GLine) = l := rfl
        rw [e3, mapInsert_get_self hsort hgl]
        exact huok
    | Clear =>
      have hrest : RedosOK ([] : GLineMap) rest := hrok
      simp only [g_redoApply, Option.map_some', Option.some_inj] at h
      subst h
      refine ⟨List.Pairwise.nil, fun p hp => absurd hp (List.not_mem_nil _),
        fun p hp => absurd hp (List.not_mem_nil _), ?_, htail, ?_, hrest⟩
      · intro e he
        simp only [List.mem_cons] at he
        rcases he with he | he
        · rw [he]
          exact ⟨hsort, hklt, hmok⟩
        · exact hue e he
      · show UndosOK ([] : GLineMap) (.ReplaceAll gs.lines :: gs.stack.undos)
        exact ⟨rfl, huok⟩

/-- Every event preserves the invariant. -/
theorem ginv_step (st : Step) (gs gs' : GSt) (hI : GInv gs)
    (h : g_applyStep st gs = some gs') : GInv gs' := by
  cases st with
  | op o => exact ginv_op o gs gs' hI h
  | undoStep => exact ginv_undo gs gs' hI h
  | redoStep => exact ginv_redo gs gs' hI h

theorem ginv_reachable {gs : GSt} (h : GReachable gs) : GInv gs := by
  induction h with
  | start m => exact ginv_initial m
  | step st _ hstep ih => exact ginv_step st _ _ ih hstep

/-- C9: in every state reachable by any sequence of add/edit/remove/clear/
undo/redo events from a normalized startup state with empty history, every
line's version is non-negative and equals the net number of applied edits on
that line since its creation or since normalization — witnessed by the
instrumented state `gs` projecting to `s`, whose ghost field `net` counts
exactly the applied edits (`+1` per committed or redone edit, `-1` per undone
edit, `0` at creation/normalization) and is a genuine integer, so
`(version : ℤ) = net ∧ 0 ≤ net` is the claimed equality and non-negativity.
In particular, whenever an `Edit` entry is about to be undone, the referenced
line exists and has version at least 1, so the `version -= 1` decrement never
underflows below zero. -/
theorem c9_version_net_edits (s : St) (h : Reachable s) :
    ∃ gs : GSt, GReachable gs ∧ projSt gs = s ∧
      (∀ id gl, mapGet gs.lines id = some gl → (gl.version : Int) = gl.net ∧ 0 ≤ gl.net) ∧
      (∀ id old_text rest, s.stack.undos = UndoEntryG.Edit id old_text :: rest →
        ∃ l, mapGet s.lines id = some l ∧ 1 ≤ l.version) := by
  obtain ⟨gs, hgr, hproj⟩ := reachable_lift s h
  have hI := ginv_reachable hgr
  refine ⟨gs, hgr, hproj, ?_, ?_⟩
  · intro id gl hg
    have h1 : (gl.version : Int) = gl.net := mapOK_get hI.lines_ok hg
    refine ⟨h1, ?_⟩
    rw [← h1]
    exact Int.natCast_nonneg _
  · intro id old_text rest hu
    subst hproj
    cases hgu : gs.stack.undos with
    | nil =>
      rw [show (projSt gs).stack.undos = [] from by simp [projSt, hgu]] at hu
      exact absurd hu (by simp)
    | cons e grest =>
      have hu2 : projUndoEntry e :: grest.map projUndoEntry =
          UndoEntryG.Edit id old_text :: rest := by
        rw [← hu]
        simp [projSt, hgu]
      cases e with
      | Add i l => simp [projUndoEntry] at hu2
      | Remove i => simp [projUndoEntry] at hu2
      | ReplaceAll o => simp [projUndoEntry] at hu2
      | Edit i o =>
        simp only [projUndoEntry, List.cons.injEq, UndoEntryG.Edit.injEq] at hu2
        obtain ⟨⟨hi, ho⟩, _⟩ := hu2
        subst hi
        subst ho
        have huok := hI.undos_ok
        rw [hgu] at huok
        obtain ⟨gl, hgl, hv, _⟩ := huok
        refine ⟨projLine gl, ?_, hv⟩
        show mapGet (projSt gs).lines i = some (projLine gl)
        simp [projSt, mapGet_projMap, hgl]

/-- Witness for C9 at the empty startup state. -/
theorem c9_version_net_edits_witness :
    ∃ gs : GSt, GReachable gs ∧ projSt gs = initial_state [] ∧
      (∀ id gl, mapGet gs.lines id = some gl → (gl.version : Int) = gl.net ∧ 0 ≤ gl.net) ∧
      (∀ id old_text rest,
        (initial_state []).stack.undos = UndoEntryG.Edit id old_text :: rest →
        ∃ l, mapGet (initial_state []).lines id = some l ∧ 1 ≤ l.version) :=
  c9_version_net_edits (initial_state []) (Reachable.start [])

end Texthooker
